import Mathlib

/-!
Verification of the word2vec notebook's skip-gram-with-negative-sampling core:
subsampling, context-pair generation, negative-sampler distribution, the
bilinear sigmoid loss, early stopping and batching, shallowly embedded in Lean.
-/

/-- Default token returned by out-of-range list indexing; indices produced by the
generator are always in range, so this value is never actually selected. -/
def noTok : String := ""

/-- Shallow embedding of the notebook's context-pair generator.  It mirrors the
Python append loop: for each `text` in the corpus, for each position `i`, for each
`j` in `range(max(0, i-w), min(i+w, len(text)))`, if `i != j` append the pair
`(text[i], text[j])` to the shared output list.  Note `i - w` on `ℕ` is truncated
subtraction, which is exactly Python's `max(0, i-w)`. -/
def context_tuple_list (w : ℕ) (corpus : List (List String)) : List (String × String) :=
  corpus.foldl (fun acc text =>
    (List.range text.length).foldl (fun acc2 i =>
      (List.range' (i - w) (min (i + w) text.length - (i - w))).foldl (fun acc3 j =>
        if i ≠ j then acc3 ++ [(text.getD i noTok, text.getD j noTok)] else acc3) acc2) acc) []

/-- The context-pair list in the shape the spec describes it: per document, per
position `i`, one pair for every `j` in `[max(0, i-w), min(len(doc), i+w))` with
`j ≠ i`, concatenated in document order, then position order, then window order. -/
def context_pairs_spec (w : ℕ) (corpus : List (List String)) : List (String × String) :=
  corpus.flatMap (fun text =>
    (List.range text.length).flatMap (fun i =>
      ((List.range' (max 0 (i - w)) (min text.length (i + w) - max 0 (i - w))).filter
        (fun j => decide (j ≠ i))).map (fun j => (text.getD i noTok, text.getD j noTok))))

/-- Python's built-in `max` over a list: `none` on the empty list, where Python
raises `ValueError`. -/
def listMax : List ℚ → Option ℚ
  | [] => none
  | x :: xs => some (xs.foldl max x)

/-- Python's built-in `min` over a list: `none` on the empty list, where Python
raises `ValueError`. -/
def listMin : List ℚ → Option ℚ
  | [] => none
  | x :: xs => some (xs.foldl min x)

/-- `EarlyStopping.update_loss`: append the new loss to `loss_list` and delete the
oldest entry when the list length exceeds `patience`. -/
def update_loss (patience : ℕ) (loss_list : List ℚ) (loss : ℚ) : List ℚ :=
  let l := loss_list ++ [loss]
  if patience < l.length then l.drop 1 else l

/-- The `loss_list` held by an `EarlyStopping` instance after recording `losses`
in order, starting from the empty list of the constructor. -/
def loss_window (patience : ℕ) (losses : List ℚ) : List ℚ :=
  losses.foldl (update_loss patience) []

/-- `EarlyStopping.stop_training` on the retained window `loss_list`, with `mpg`
the stored threshold (`min_percent_gain / 100` from the constructor).  Returns
`none` exactly where Python raises: `max`/`min` of an empty sequence when the
window is empty, and `ZeroDivisionError` when `max(loss_list) = 0`. -/
def stop_training (loss_list : List ℚ) (mpg : ℚ) : Option Bool :=
  if loss_list.length = 1 then some false
  else
    match listMax loss_list, listMin loss_list with
    | some M, some m => if M = 0 then none else some (decide ((M - m) / M < mpg))
    | _, _ => none

/-- The notebook's `vocabulary = set(itertools.chain.from_iterable(corpus))`: the
distinct tokens of the flattened corpus.  Python's set iteration order is
unspecified; `dedup` fixes one concrete order (first occurrence), which is all the
spec demands ("index assignment order is unspecified but must be consistent"). -/
def vocabulary (corpus : List (List String)) : List String :=
  corpus.flatten.dedup

/-- The notebook's `word_to_index = {w: idx for (idx, w) in enumerate(vocabulary)}`,
as an association list from token to index. -/
def word_to_index (corpus : List (List String)) : List (String × ℕ) :=
  (vocabulary corpus).enum.map (fun p => (p.2, p.1))

/-- The body of the notebook's `get_batches` loop: `xs` is the remainder of the
shuffled context tuple list, `i` the running index of the current element, `n` the
total list length, `batch` the triples accumulated since the last flush.  A batch
is flushed when `(i+1) % batch_size == 0` or `i == n-1`, exactly as in the code;
`f` is the per-triple indexing of targets, contexts and negatives. -/
def getBatchesAux {α β : Type} (f : α → β) (bs : ℕ) :
    List α → ℕ → ℕ → List β → List (List β)
  | [], _, _, _ => []
  | x :: rest, i, n, batch =>
    if (i + 1) % bs = 0 ∨ i = n - 1 then
      (batch ++ [f x]) :: getBatchesAux f bs rest (i + 1) n []
    else
      getBatchesAux f bs rest (i + 1) n (batch ++ [f x])

/-- The notebook's `get_batches` applied to an already-shuffled tuple list
(`random.shuffle` is modelled at the call sites by quantifying over permutations
of the input): each (target, context, negatives) triple is turned into the index
triple `(wti target, wti context, negatives.map wti)`, with `wti` standing for the
ambient `word_to_index` dictionary, and grouped into batches of `batch_size`. -/
def get_batches (wti : String → ℕ) (shuffled : List (String × String × List String))
    (batch_size : ℕ) : List (List (ℕ × ℕ × List ℕ)) :=
  getBatchesAux (fun t => (wti t.1, wti t.2.1, t.2.2.map wti)) batch_size shuffled 0
    shuffled.length []

/-- The subsampling keep-probability of the notebook,
`(1 + math.sqrt(p * 1e3)) * 1e-3 / p`, for a token of corpus-wide relative
frequency `p` (floating point modelled by exact reals). -/
noncomputable def keepProb (p : ℝ) : ℝ :=
  (1 + Real.sqrt (p * 1000)) * (1 / 1000) / p

/-- The `word_counts` dictionary of `subsample_frequent_words` after normalization:
occurrences of `w` divided by the total token count of the corpus. -/
noncomputable def wordFreq (corpus : List (List String)) (w : String) : ℝ :=
  (corpus.flatten.count w : ℝ) / (corpus.flatten.length : ℝ)

open Classical in
/-- The inner loop of `subsample_frequent_words` on one document: the token at
global occurrence index `n` is kept iff the `n`-th uniform draw is below its keep
probability; exactly one draw is consumed per occurrence. -/
noncomputable def subsampleText (draws : ℕ → ℝ) (P : String → ℝ) :
    List String → ℕ → List String
  | [], _ => []
  | word :: rest, n =>
    if draws n < P word then word :: subsampleText draws P rest (n + 1)
    else subsampleText draws P rest (n + 1)

/-- The outer loop of `subsample_frequent_words`: documents are processed in
order, the draw counter advancing by the document length. -/
noncomputable def subsampleCorpus (draws : ℕ → ℝ) (P : String → ℝ) :
    List (List String) → ℕ → List (List String)
  | [], _ => []
  | text :: rest, n =>
    subsampleText draws P text n :: subsampleCorpus draws P rest (n + text.length)

/-- The notebook's `subsample_frequent_words`, with the shared `random.random()`
stream made explicit as `draws` (the `n`-th call returns `draws n`). -/
noncomputable def subsample_frequent_words (draws : ℕ → ℝ)
    (corpus : List (List String)) : List (List String) :=
  subsampleCorpus draws (fun w => keepProb (wordFreq corpus w)) corpus 0

open Classical in
/-- The subsampler output in the shape the spec describes it: one output document
per input document, in order; document `k` is the subsequence of its tokens whose
occurrence (at in-document position `j`, hence global draw index
`Σ len(doc 0..k-1) + j`) received a draw below its keep probability. -/
noncomputable def subsample_spec (draws : ℕ → ℝ) (corpus : List (List String)) :
    List (List String) :=
  (List.range corpus.length).map (fun k =>
    ((corpus.getD k []).enumFrom (((corpus.take k).map List.length).sum)).filterMap
      (fun jw => if draws jw.1 < keepProb (wordFreq corpus jw.2) then some jw.2 else none))

/-- The `normalizing_factor` of `sample_negative`: the sum of `count(w) ** 0.75`
over the distinct words of the corpus it reads (`Counter` iterates keys in first
occurrence order, here `dedup` order). -/
noncomputable def normalizing_factor (corpus : List (List String)) : ℝ :=
  (corpus.flatten.dedup.map (fun w => (corpus.flatten.count w : ℝ) ^ (0.75 : ℝ))).sum

/-- The `sample_probability` dictionary of `sample_negative`:
`count(word) ** 0.75 / normalizing_factor` over the corpus it reads. -/
noncomputable def sample_probability (corpus : List (List String)) (word : String) : ℝ :=
  (corpus.flatten.count word : ℝ) ^ (0.75 : ℝ) / normalizing_factor corpus

/-- The categorical distribution actually used by the notebook's negative sampler:
`sample_negative` reads the *global* `corpus`, which has already been reassigned to
`subsample_frequent_words(corpus)` by the time the generator body first runs, so
its counts are taken over the post-subsampling corpus. -/
noncomputable def pipeline_sample_probability (draws : ℕ → ℝ)
    (corpus0 : List (List String)) (word : String) : ℝ :=
  sample_probability (subsample_frequent_words draws corpus0) word

/-- The distribution used by the `n`-th `yield` of a `sample_negative` generator
built over `corpus`: the `sample_probability` dictionary is computed once, before
the `while True` loop, and every draw reads that same dictionary. -/
noncomputable def sample_negative_dists (corpus : List (List String)) :
    ℕ → String → ℝ :=
  fun _ => sample_probability corpus

/-- The draws of `subsample_frequent_words` used in the Claim C1 counterexample:
the second occurrence gets draw 1 (dropped), all others draw 0 (kept). -/
noncomputable def subDraws : ℕ → ℝ :=
  fun n => if n = 1 then 1 else 0

/-- `torch.sigmoid`: `1 / (1 + exp(-x))`, in exact reals. -/
noncomputable def sigmoid (x : ℝ) : ℝ :=
  1 / (1 + Real.exp (-x))

/-- `F.logsigmoid`: the logarithm of the sigmoid. -/
noncomputable def logsigmoid (x : ℝ) : ℝ :=
  Real.log (sigmoid x)

/-- The skip-gram `Word2Vec` module: two embedding tables, indexed by vocabulary
index, each row a `D`-vector. -/
structure Word2Vec where
  embeddings_target : ℕ → List ℝ
  embeddings_context : ℕ → List ℝ

/-- `Word2Vec.forward` exactly as the notebook computes it on a batch of target
indices, context indices and `k`-negative index rows: the positive term is
`Σ_b logsigmoid(Σ_d t_b * c_b)`; for negatives the code does
`torch.bmm` (per-row dots, shape `[B,k,1]`), then `torch.sum(•, dim=1)` — summing
*over the k negatives* — and only then applies `logsigmoid`, i.e.
`Σ_b logsigmoid(-Σ_k ⟨n_bk, t_b⟩)`; the result is `-(positive + negative)`. -/
noncomputable def forward (net : Word2Vec) (target_word context_word : List ℕ)
    (negative_example : List (List ℕ)) : ℝ :=
  let emb_target := target_word.map net.embeddings_target
  let emb_context := context_word.map net.embeddings_context
  let emb_product := List.zipWith (fun t c => (List.zipWith (fun a b => a * b) t c).sum)
    emb_target emb_context
  let out1 := (emb_product.map logsigmoid).sum
  let emb_negative := negative_example.map (fun negs => negs.map net.embeddings_context)
  let neg_product := List.zipWith
    (fun negs t => negs.map (fun nv => (List.zipWith (fun a b => a * b) nv t).sum))
    emb_negative emb_target
  let neg_summed := neg_product.map List.sum
  let out2 := (neg_summed.map (fun s => logsigmoid (-s))).sum;
  -(out1 + out2)

/-- The loss the claim (and the notebook's own displayed formula
`l = -log σ(e_T·e_C) - Σ_i log σ(-e_T·e_N,i)`) prescribes: `logsigmoid` applied to
each negative dot product separately, then summed over the `k` negatives and the
batch. -/
noncomputable def forward_claim (net : Word2Vec) (target_word context_word : List ℕ)
    (negative_example : List (List ℕ)) : ℝ :=
  let emb_target := target_word.map net.embeddings_target
  let emb_context := context_word.map net.embeddings_context
  let emb_product := List.zipWith (fun t c => (List.zipWith (fun a b => a * b) t c).sum)
    emb_target emb_context
  let out1 := (emb_product.map logsigmoid).sum
  let emb_negative := negative_example.map (fun negs => negs.map net.embeddings_context)
  let neg_product := List.zipWith
    (fun negs t => negs.map (fun nv => (List.zipWith (fun a b => a * b) nv t).sum))
    emb_negative emb_target
  let out2 := (neg_product.map (fun row => (row.map (fun s => logsigmoid (-s))).sum)).sum;
  -(out1 + out2)

/-- A concrete one-dimensional `Word2Vec` whose every embedding row is `[1]`. -/
noncomputable def oneNet : Word2Vec :=
  { embeddings_target := fun _ => [1], embeddings_context := fun _ => [1] }

theorem foldl_step_append {α β : Type} (step : List β → α → List β) (g : α → List β)
    (h : ∀ acc x, step acc x = acc ++ g x) :
    ∀ (l : List α) (init : List β), l.foldl step init = init ++ l.flatMap g := by
  intro l
  induction l with
  | nil => intro init; simp
  | cons x xs ih =>
    intro init
    simp only [List.foldl_cons, List.flatMap_cons, h, ih, List.append_assoc]

theorem foldl_filter_append {β : Type} (p : ℕ → Prop) [DecidablePred p] (f : ℕ → β) :
    ∀ (l : List ℕ) (init : List β),
      l.foldl (fun acc j => if p j then acc ++ [f j] else acc) init
        = init ++ (l.filter (fun j => decide (p j))).map f := by
  intro l
  induction l with
  | nil => intro init; simp
  | cons j js ih =>
    intro init
    by_cases h : p j
    · simp [h, ih, List.append_assoc]
    · simp [h, ih]

theorem context_tuple_list_eq (w : ℕ) (corpus : List (List String)) :
    context_tuple_list w corpus = context_pairs_spec w corpus := by
  unfold context_tuple_list context_pairs_spec
  rw [foldl_step_append _
      (fun text => (List.range text.length).flatMap (fun i =>
        ((List.range' (max 0 (i - w)) (min text.length (i + w) - max 0 (i - w))).filter
          (fun j => decide (j ≠ i))).map (fun j => (text.getD i noTok, text.getD j noTok))))]
  · simp
  · intro acc text
    rw [foldl_step_append _
        (fun i => ((List.range' (max 0 (i - w)) (min text.length (i + w) - max 0 (i - w))).filter
          (fun j => decide (j ≠ i))).map (fun j => (text.getD i noTok, text.getD j noTok)))]
    intro acc2 i
    rw [foldl_filter_append (fun j => i ≠ j)
        (fun j => (text.getD i noTok, text.getD j noTok))]
    have hpred : (fun j => decide (i ≠ j)) = (fun j => decide (j ≠ i)) := by
      funext j
      exact decide_eq_decide.mpr ne_comm
    rw [hpred, Nat.zero_max, Nat.min_comm]

/-- Claim C3: for every corpus and window half-width `w`, the generator emits, per
document and position `i`, exactly one pair for every `j` in
`[max(0, i-w), min(len(doc), i+w))` with `j ≠ i`, pairing `text[i]` with `text[j]`,
in document order, then position order, then window order, and no pair combines
tokens of two different documents (each pair on the right-hand side is built from a
single document). -/
theorem context_tuple_list_spec (w : ℕ) (corpus : List (List String)) :
    context_tuple_list w corpus = context_pairs_spec w corpus :=
  context_tuple_list_eq w corpus

/-- Claim C4 (code evaluation): for the document `["a","b","c","d","e"]` with window
half-width 2, the code pairs the target at index 2 (`"c"`) with contexts
`["a","b","d"]` only — `"e"` is missing, because the loop bound
`min(i+w, len(text))` is exclusive, so the right context only reaches `i+w-1`.
The notebook's own markdown example (window 2 around `lazy`) promises a symmetric
window, which the claim restates; the code disagrees. -/
theorem context_of_c_eval : ((context_tuple_list 2 [["a", "b", "c", "d", "e"]]).filter
    (fun pr => pr.1 == ("c"))).map Prod.snd = [("a"), ("b"), ("d")] := by decide

/-- Claim C5 (counterexample): a pair whose target token equals its context token is
emitted, e.g. for the one-document corpus `[["a","a"]]` with window half-width 2 the
generator outputs exactly `[("a","a"), ("a","a")]`: the code only excludes equal
positions `i = j`, not equal tokens. -/
theorem context_pair_equal_tokens :
    context_tuple_list 2 [["a", "a"]] = [(("a"), ("a")), (("a"), ("a"))] := by decide

/-- Claim C5 (amended): every pair emitted by the generator arises from two distinct
positions `i ≠ j` of a single document, with `j` inside the window
`[max(0, i-w), min(len(doc), i+w))`; equal tokens can still be paired when a token
repeats inside the window. -/
theorem context_pair_positions (w : ℕ) (corpus : List (List String)) :
    ∀ pr ∈ context_tuple_list w corpus, ∃ text ∈ corpus, ∃ i j : ℕ,
      i < text.length ∧ j < text.length ∧ i ≠ j ∧ i - w ≤ j ∧ j < i + w ∧
      pr = (text.getD i noTok, text.getD j noTok) := by
  intro pr hpr
  rw [context_tuple_list_eq, context_pairs_spec] at hpr
  simp only [List.mem_flatMap, List.mem_map, List.mem_filter, List.mem_range,
    List.mem_range', decide_eq_true_eq] at hpr
  obtain ⟨text, htext, i, hi, j, ⟨⟨t, ht, hjt⟩, hne⟩, hpair⟩ := hpr
  refine ⟨text, htext, i, j, hi, ?_, fun h => hne (h ▸ rfl), ?_, ?_, hpair.symm⟩
  · have h1 := Nat.min_le_left text.length (i + w)
    omega
  · omega
  · have h1 := Nat.min_le_right text.length (i + w)
    omega

/-- Witness for `context_pair_positions` at the corpus `[["a","b"]]`, window 2, and
the emitted pair `("a","b")`. -/
theorem context_pair_positions_witness :
    ∃ text ∈ [["a", "b"]], ∃ i j : ℕ,
      i < text.length ∧ j < text.length ∧ i ≠ j ∧ i - 2 ≤ j ∧ j < i + 2 ∧
      ((("a"), ("b")) : String × String) = (text.getD i noTok, text.getD j noTok) :=
  context_pair_positions 2 [["a", "b"]] (("a"), ("b")) (by decide)

theorem drop_one_append {α : Type} (l₁ l₂ : List α) (h : l₁ ≠ []) :
    (l₁ ++ l₂).drop 1 = l₁.drop 1 ++ l₂ := by
  cases l₁ with
  | nil => exact absurd rfl h
  | cons a as => simp

theorem loss_window_aux (p : ℕ) :
    ∀ (l acc : List ℚ), acc.length ≤ p →
      l.foldl (update_loss p) acc = (acc ++ l).drop (acc.length + l.length - p) := by
  intro l
  induction l with
  | nil =>
    intro acc hacc
    simp [Nat.sub_eq_zero_of_le hacc]
  | cons x xs ih =>
    intro acc hacc
    simp only [List.foldl_cons]
    by_cases h : p < (acc ++ [x]).length
    · have hlen : acc.length = p := by
        simp only [List.length_append, List.length_cons, List.length_nil] at h
        omega
      have hstep : update_loss p acc x = (acc ++ [x]).drop 1 := by
        simp only [update_loss]
        rw [if_pos h]
      have hlen' : ((acc ++ [x]).drop 1).length ≤ p := by
        simp [hlen]
      rw [hstep, ih _ hlen']
      have e1 : ((acc ++ [x]).drop 1).length + xs.length - p = xs.length := by
        simp only [List.length_drop, List.length_append, List.length_cons, List.length_nil]
        omega
      rw [e1, ← drop_one_append (acc ++ [x]) xs (by simp), List.drop_drop]
      have e2 : acc.length + (x :: xs).length - p = 1 + xs.length := by
        simp only [List.length_cons]
        omega
      rw [e2]
      have e3 : acc ++ [x] ++ xs = acc ++ x :: xs := by simp
      rw [e3]
    · have hstep : update_loss p acc x = acc ++ [x] := by
        simp only [update_loss]
        rw [if_neg h]
      have hle : (acc ++ [x]).length ≤ p := by
        simp only [List.length_append, List.length_cons, List.length_nil] at h ⊢
        omega
      rw [hstep, ih _ hle]
      have e3 : acc ++ [x] ++ xs = acc ++ x :: xs := by simp
      rw [e3]
      congr 1
      simp only [List.length_append, List.length_cons, List.length_nil]
      omega

/-- Claim C7 (counterexample): with `patience = 1` and recorded losses `[10, 9]`
(so two losses recorded, more than one), the retained window is `[9]`, its gain
`(9-9)/9 = 0` is below the threshold `1/100`, yet `stop_training` returns `false`:
the code's `len(loss_list) == 1` test is on the retained window, not on the number
of losses recorded, so the claim's stop rule is violated. -/
theorem stop_training_counterexample :
    loss_window 1 [10, 9] = [(9 : ℚ)] ∧
    ((9 : ℚ) - 9) / 9 < 1 / 100 ∧
    stop_training (loss_window 1 [10, 9]) (1 / 100) = some false := by
  have h1 : loss_window 1 [10, 9] = [(9 : ℚ)] := by
    norm_num [loss_window, update_loss]
  refine ⟨h1, by norm_num, ?_⟩
  rw [h1]
  simp [stop_training]

/-- Claim C7 (amended): the retained window after recording `losses` is the suffix
of the at most `patience` most recent losses; the stop decision is a function of
the window, not of how many losses were recorded: a singleton window yields
`false`; on a window of length ≥ 2 with maximum `M ≠ 0` and minimum `m` the
decision is `true` iff `(M - m)/M < mpg`; on an empty window (and on `M = 0`) the
Python code raises instead of returning. -/
theorem stop_training_spec (patience : ℕ) (losses : List ℚ) (mpg : ℚ) :
    loss_window patience losses = losses.drop (losses.length - patience) ∧
    (∀ w : List ℚ, w.length = 1 → stop_training w mpg = some false) ∧
    (∀ (w : List ℚ) (M m : ℚ), 2 ≤ w.length → listMax w = some M → listMin w = some m →
      M ≠ 0 → (stop_training w mpg = some true ↔ (M - m) / M < mpg)) := by
  refine ⟨?_, ?_, ?_⟩
  · have h := loss_window_aux patience losses [] (by simp)
    simpa [loss_window] using h
  · intro w hw
    simp [stop_training, hw]
  · intro w M m hlen hM hm hMne
    have h1 : w.length ≠ 1 := by omega
    simp only [stop_training, if_neg h1, hM, hm, if_neg hMne]
    constructor
    · intro h
      have := Option.some.inj h
      exact of_decide_eq_true this
    · intro h
      rw [decide_eq_true h]

/-- Witness for `stop_training_spec`: concrete window `[10, 9]` with threshold
`1/100`; the decision `stop_training [10, 9] (1/100)` is `some true` iff
`(10 - 9)/10 < 1/100` (which is false, and indeed the decision is `some false`). -/
theorem stop_training_spec_witness :
    stop_training [(10 : ℚ), 9] (1 / 100) = some true ↔ ((10 : ℚ) - 9) / 10 < 1 / 100 :=
  (stop_training_spec 5 [] (1 / 100)).2.2 [10, 9] 10 9 (by norm_num) (by norm_num [listMax])
    (by norm_num [listMin]) (by norm_num)

/-- Claim C9 (counterexample): on the empty corpus the vocabulary builder does not
fail and raises nothing — the notebook cell contains no raise path at all — it
just produces the empty mapping.  No `EmptyVocabularyError` exists in the code. -/
theorem word_to_index_empty : word_to_index ([] : List (List String)) = [] := by decide

/-- Claim C9 (amended): the vocabulary builder is total: it succeeds on every
corpus (the empty corpus included, yielding the empty mapping, with no error
raised), and on any corpus it assigns every observed token exactly one index. -/
theorem word_to_index_total (corpus : List (List String)) :
    ∀ tok ∈ corpus.flatten, ∃! i : ℕ, (tok, i) ∈ word_to_index corpus := by
  intro tok htok
  have hmem : tok ∈ vocabulary corpus := List.mem_dedup.mpr htok
  have hpair : ∀ i : ℕ, (tok, i) ∈ word_to_index corpus ↔
      (vocabulary corpus)[i]? = some tok := by
    intro i
    constructor
    · intro h
      simp only [word_to_index, List.mem_map] at h
      obtain ⟨p, hp, hpe⟩ := h
      have h1 : p = (i, tok) := by
        cases p
        cases hpe
        rfl
      rw [h1] at hp
      exact List.mk_mem_enum_iff_getElem?.mp hp
    · intro h
      simp only [word_to_index, List.mem_map]
      exact ⟨(i, tok), List.mk_mem_enum_iff_getElem?.mpr h, rfl⟩
  obtain ⟨i, hi⟩ := List.mem_iff_getElem?.mp hmem
  refine ⟨i, (hpair i).mpr hi, ?_⟩
  intro j hj
  have hji := (hpair j).mp hj
  have hlt : j < (vocabulary corpus).length := by
    by_contra hge
    rw [List.getElem?_eq_none (Nat.le_of_not_lt hge)] at hji
    exact Option.noConfusion hji
  refine List.getElem?_inj hlt (List.nodup_dedup corpus.flatten) ?_
  rw [hji, hi]

/-- Witness for `word_to_index_total`: in the corpus `[["b","a","b"]]` the token
`"a"` receives exactly one index. -/
theorem word_to_index_total_witness :
    ∃! i : ℕ, (("a"), i) ∈ word_to_index [["b", "a", "b"]] :=
  word_to_index_total [["b", "a", "b"]] ("a") (by decide)

theorem succ_mod (bs i : ℕ) (hbs : 0 < bs) :
    ((i + 1) % bs = 0 ↔ i % bs + 1 = bs) ∧
    ((i + 1) % bs ≠ 0 → (i + 1) % bs = i % bs + 1) := by
  have hdm := Nat.div_add_mod i bs
  have hB : i % bs < bs := Nat.mod_lt i hbs
  have key : (i + 1) % bs = (i % bs + 1) % bs := by
    conv_lhs => rw [← hdm]
    rw [Nat.add_assoc, Nat.mul_add_mod]
  rcases Nat.lt_or_ge (i % bs + 1) bs with hlt | hge
  · rw [key, Nat.mod_eq_of_lt hlt]
    exact ⟨by omega, fun _ => rfl⟩
  · have heq : i % bs + 1 = bs := by omega
    rw [key, heq, Nat.mod_self]
    exact ⟨⟨fun _ => rfl, fun _ => rfl⟩, fun h0 => absurd rfl h0⟩

theorem getBatchesAux_ne_nil {α β : Type} (f : α → β) (bs : ℕ) :
    ∀ (xs : List α) (i n : ℕ) (batch : List β), xs ≠ [] → i + xs.length = n →
      getBatchesAux f bs xs i n batch ≠ [] := by
  intro xs
  induction xs with
  | nil => intro _ _ _ h _; exact absurd rfl h
  | cons x rest ih =>
    intro i n batch _ hn
    simp only [getBatchesAux]
    by_cases hc : (i + 1) % bs = 0 ∨ i = n - 1
    · rw [if_pos hc]
      exact List.cons_ne_nil _ _
    · rw [if_neg hc]
      have hrest : rest ≠ [] := by
        intro he
        subst he
        simp at hn
        omega
      exact ih (i + 1) n _ hrest (by simp at hn ⊢; omega)

theorem getBatchesAux_flatten {α β : Type} (f : α → β) (bs : ℕ) :
    ∀ (xs : List α) (i n : ℕ) (batch : List β), xs ≠ [] → i + xs.length = n →
      (getBatchesAux f bs xs i n batch).flatten = batch ++ xs.map f := by
  intro xs
  induction xs with
  | nil => intro _ _ _ h _; exact absurd rfl h
  | cons x rest ih =>
    intro i n batch _ hn
    simp only [getBatchesAux]
    by_cases hrest : rest = []
    · subst hrest
      have hc : (i + 1) % bs = 0 ∨ i = n - 1 := by
        right
        simp at hn
        omega
      rw [if_pos hc]
      simp [getBatchesAux]
    · have hn' : (i + 1) + rest.length = n := by simp at hn ⊢; omega
      by_cases hc : (i + 1) % bs = 0 ∨ i = n - 1
      · rw [if_pos hc]
        simp only [List.flatten_cons, ih (i + 1) n [] hrest hn', List.nil_append,
          List.map_cons]
        simp
      · rw [if_neg hc]
        rw [ih (i + 1) n _ hrest hn']
        simp

theorem getBatchesAux_sizes {α β : Type} (f : α → β) (bs : ℕ) (hbs : 0 < bs) :
    ∀ (xs : List α) (i n : ℕ) (batch : List β), i + xs.length = n →
      i % bs = batch.length →
      (∀ b ∈ (getBatchesAux f bs xs i n batch).dropLast, b.length = bs) ∧
      (∀ lb, (getBatchesAux f bs xs i n batch).getLast? = some lb →
        1 ≤ lb.length ∧ lb.length ≤ bs) := by
  intro xs
  induction xs with
  | nil =>
    intro i n batch _ _
    simp [getBatchesAux]
  | cons x rest ih =>
    intro i n batch hn hinv
    have hB : batch.length < bs := hinv ▸ Nat.mod_lt i hbs
    simp only [getBatchesAux]
    by_cases hrest : rest = []
    · subst hrest
      have hc : (i + 1) % bs = 0 ∨ i = n - 1 := by
        right
        simp at hn
        omega
      rw [if_pos hc]
      simp only [getBatchesAux]
      constructor
      · intro b hb
        simp at hb
      · intro lb hlb
        simp only [List.getLast?_singleton, Option.some.injEq] at hlb
        subst hlb
        simp
        omega
    · have hn' : (i + 1) + rest.length = n := by simp at hn ⊢; omega
      by_cases hc : (i + 1) % bs = 0 ∨ i = n - 1
      · have hmod : (i + 1) % bs = 0 := by
          rcases hc with h | h
          · exact h
          · exfalso
            have : rest.length = 0 := by simp at hn; omega
            exact hrest (List.eq_nil_of_length_eq_zero this)
        have hfull : batch.length + 1 = bs := by
          have := (succ_mod bs i hbs).1.mp hmod
          omega
        rw [if_pos hc]
        have htail := ih (i + 1) n [] hn' (by simpa using hmod)
        have htne : getBatchesAux f bs rest (i + 1) n [] ≠ [] :=
          getBatchesAux_ne_nil f bs rest (i + 1) n [] hrest hn'
        constructor
        · intro b hb
          rw [List.dropLast_cons_of_ne_nil htne] at hb
          rcases List.mem_cons.mp hb with h | h
          · subst h
            simp
            omega
          · exact htail.1 b h
        · intro lb hlb
          rcases List.exists_cons_of_ne_nil htne with ⟨y, ys, hys⟩
          rw [hys, List.getLast?_cons_cons] at hlb
          exact htail.2 lb (hys ▸ hlb)
      · rw [if_neg hc]
        have hrest' : rest ≠ [] := by
          intro he
          subst he
          simp at hn
          omega
        have hmodne : (i + 1) % bs ≠ 0 := fun h => hc (Or.inl h)
        have hinv' : (i + 1) % bs = (batch ++ [f x]).length := by
          rw [(succ_mod bs i hbs).2 hmodne]
          simp [hinv]
        exact ih (i + 1) n (batch ++ [f x]) hn' hinv'

/-- Claim C10: for every non-empty tuple list and positive batch size,
`get_batches` (applied to any shuffle, i.e. any permutation, of the input) returns
batches whose concatenation is exactly the index triples of a permutation of the
input — each pair appearing exactly once — with every batch but possibly the last
of size exactly `batch_size` and the last of size between 1 and `batch_size`. -/
theorem get_batches_spec (wti : String → ℕ)
    (input shuffled : List (String × String × List String)) (bs : ℕ)
    (hperm : shuffled.Perm input) (hne : input ≠ []) (hbs : 0 < bs) :
    (get_batches wti shuffled bs).flatten.Perm
      (input.map (fun t => (wti t.1, wti t.2.1, t.2.2.map wti))) ∧
    (∀ b ∈ (get_batches wti shuffled bs).dropLast, b.length = bs) ∧
    (∀ lb, (get_batches wti shuffled bs).getLast? = some lb →
      1 ≤ lb.length ∧ lb.length ≤ bs) := by
  have hsne : shuffled ≠ [] := by
    intro he
    subst he
    exact hne (List.eq_nil_of_length_eq_zero (by simpa using hperm.length_eq.symm))
  have hflat : (get_batches wti shuffled bs).flatten
      = shuffled.map (fun t => (wti t.1, wti t.2.1, t.2.2.map wti)) := by
    unfold get_batches
    rw [getBatchesAux_flatten _ bs shuffled 0 shuffled.length [] hsne (by simp)]
    simp
  have hsizes := getBatchesAux_sizes
    (fun t : String × String × List String => (wti t.1, wti t.2.1, t.2.2.map wti)) bs hbs
    shuffled 0 shuffled.length [] (by simp) (by simp)
  refine ⟨?_, hsizes.1, hsizes.2⟩
  rw [hflat]
  exact hperm.map _

/-- Witness for `get_batches_spec` at a concrete three-element tuple list (taken in
its identity shuffle), batch size 2, and `wti` = token length: batches `[[t0, t1], [t2]]`. -/
theorem get_batches_spec_witness :
    (get_batches String.length
        [(("a"), ("b"), ["c"]), (("d"), ("e"), ["f"]), (("g"), ("h"), ["i"])] 2).flatten.Perm
      ([(("a"), ("b"), ["c"]), (("d"), ("e"), ["f"]), (("g"), ("h"), ["i"])].map
        (fun t => (t.1.length, t.2.1.length, t.2.2.map String.length))) ∧
    (∀ b ∈ (get_batches String.length
        [(("a"), ("b"), ["c"]), (("d"), ("e"), ["f"]), (("g"), ("h"), ["i"])] 2).dropLast,
      b.length = 2) ∧
    (∀ lb, (get_batches String.length
        [(("a"), ("b"), ["c"]), (("d"), ("e"), ["f"]), (("g"), ("h"), ["i"])] 2).getLast?
        = some lb → 1 ≤ lb.length ∧ lb.length ≤ 2) :=
  get_batches_spec String.length
    [(("a"), ("b"), ["c"]), (("d"), ("e"), ["f"]), (("g"), ("h"), ["i"])]
    [(("a"), ("b"), ["c"]), (("d"), ("e"), ["f"]), (("g"), ("h"), ["i"])] 2
    (List.Perm.refl _) (by decide) (by decide)

theorem subsampleText_eq (draws : ℕ → ℝ) (P : String → ℝ) :
    ∀ (text : List String) (n : ℕ),
      subsampleText draws P text n = (text.enumFrom n).filterMap
        (fun jw => if draws jw.1 < P jw.2 then some jw.2 else none) := by
  intro text
  induction text with
  | nil => intro n; simp [subsampleText]
  | cons word rest ih =>
    intro n
    by_cases h : draws n < P word
    · simp [subsampleText, h, ih]
    · simp [subsampleText, h, ih]

theorem subsampleCorpus_eq (draws : ℕ → ℝ) (P : String → ℝ) :
    ∀ (corpus : List (List String)) (n : ℕ),
      subsampleCorpus draws P corpus n = (List.range corpus.length).map (fun k =>
        ((corpus.getD k []).enumFrom (n + ((corpus.take k).map List.length).sum)).filterMap
          (fun jw => if draws jw.1 < P jw.2 then some jw.2 else none)) := by
  intro corpus
  induction corpus with
  | nil => intro n; simp [subsampleCorpus]
  | cons text rest ih =>
    intro n
    simp only [subsampleCorpus, List.length_cons, List.range_succ_eq_map, List.map_cons,
      List.map_map]
    congr 1
    · rw [subsampleText_eq]
      simp
    · rw [ih (n + text.length)]
      apply List.map_congr_left
      intro k _
      simp only [Function.comp_apply, List.getD_cons_succ, List.take_succ_cons,
        List.map_cons, List.sum_cons]
      congr 2
      omega

/-- Claim C6: for every corpus and draw stream, the subsampler equals its
specification: one output document per input document in order, each the
subsequence of tokens whose occurrence — one independent uniform draw consumed per
occurrence, in corpus order — received a draw strictly below
`keepProb(frequency)`; a keep probability at or above 1 therefore keeps the
occurrence for every draw in `[0,1)`. -/
theorem subsample_frequent_words_spec (draws : ℕ → ℝ) (corpus : List (List String)) :
    subsample_frequent_words draws corpus = subsample_spec draws corpus := by
  unfold subsample_frequent_words subsample_spec
  rw [subsampleCorpus_eq]
  simp

theorem keepProb_pos {p : ℝ} (hp : 0 < p) : 0 < keepProb p := by
  unfold keepProb
  have h1 : (0 : ℝ) < 1 + Real.sqrt (p * 1000) := by
    have := Real.sqrt_nonneg (p * 1000)
    linarith
  have h2 : (0 : ℝ) < 1 / 1000 := by norm_num
  exact div_pos (mul_pos h1 h2) hp

theorem keepProb_eq {p : ℝ} (hp : 0 < p) :
    keepProb p = 1 / (1000 * p) + 1 / Real.sqrt (1000 * p) := by
  have hpos : (0 : ℝ) < 1000 * p := by linarith
  have hsp : 0 < Real.sqrt (1000 * p) := Real.sqrt_pos.mpr hpos
  have hsq : Real.sqrt (1000 * p) * Real.sqrt (1000 * p) = 1000 * p :=
    Real.mul_self_sqrt (le_of_lt hpos)
  have key : Real.sqrt (1000 * p) / (1000 * p) = 1 / Real.sqrt (1000 * p) := by
    rw [div_eq_div_iff hpos.ne' hsp.ne', one_mul, hsq]
  have hform : keepProb p = (1 + Real.sqrt (1000 * p)) / (1000 * p) := by
    unfold keepProb
    rw [mul_comm p 1000, mul_one_div, div_div]
  rw [hform, add_div, key]

theorem keepProb_lt_one {p : ℝ} (hp : 1 / 100 ≤ p) : keepProb p < 1 := by
  have hp0 : 0 < p := by linarith
  have hpos : (0 : ℝ) < 1000 * p := by linarith
  have h10 : (10 : ℝ) ≤ 1000 * p := by linarith
  rw [keepProb_eq hp0]
  have h1 : 1 / (1000 * p) ≤ 1 / 10 := by
    apply one_div_le_one_div_of_le
    · norm_num
    · exact h10
  have h3 : (3 : ℝ) ≤ Real.sqrt (1000 * p) := by
    rw [Real.le_sqrt (by norm_num) (le_of_lt hpos)]
    nlinarith
  have h2 : 1 / Real.sqrt (1000 * p) ≤ 1 / 3 := by
    apply one_div_le_one_div_of_le
    · norm_num
    · exact h3
  linarith

/-- Claim C8: the raw keep probability `P(p) = (sqrt(p * 1e3) + 1) * 1e-3 / p` is
strictly decreasing in the relative frequency `p` over `(0, 1]`; for `p ≤ 1/1000`
it is at least 1 (so, compared against a uniform draw in `[0,1)`, the occurrence
is always kept — the effective clamp to 1); and for frequent words
(`p ≥ 1/100`) it is strictly below 1. -/
theorem keepProb_profile :
    StrictAntiOn keepProb (Set.Ioc 0 1) ∧
    (∀ p : ℝ, 0 < p → p ≤ 1 / 1000 → 1 ≤ keepProb p) ∧
    (∀ p : ℝ, 1 / 100 ≤ p → keepProb p < 1) := by
  refine ⟨?_, ?_, fun p hp => keepProb_lt_one hp⟩
  · intro p hp q hq hpq
    have hp0 : 0 < p := hp.1
    have hq0 : 0 < q := hq.1
    rw [keepProb_eq hp0, keepProb_eq hq0]
    have h1 : 1 / (1000 * q) < 1 / (1000 * p) := by
      apply one_div_lt_one_div_of_lt
      · linarith
      · linarith
    have h2 : 1 / Real.sqrt (1000 * q) < 1 / Real.sqrt (1000 * p) := by
      apply one_div_lt_one_div_of_lt
      · exact Real.sqrt_pos.mpr (by linarith)
      · exact Real.sqrt_lt_sqrt (by linarith) (by linarith)
    linarith
  · intro p hp0 hple
    rw [keepProb_eq hp0]
    have hpos : (0 : ℝ) < 1000 * p := by linarith
    have h1 : (1 : ℝ) ≤ 1 / (1000 * p) := by
      rw [le_div_iff₀ hpos]
      linarith
    have h2 : 0 < 1 / Real.sqrt (1000 * p) :=
      div_pos (by norm_num) (Real.sqrt_pos.mpr hpos)
    linarith

/-- Witness for `keepProb_profile`: `P` decreases strictly from `p = 1/2` to
`p = 1`, `P(1/1000) ≥ 1`, and `P(1/100) < 1`. -/
theorem keepProb_profile_witness :
    keepProb 1 < keepProb (1 / 2) ∧ 1 ≤ keepProb (1 / 1000) ∧ keepProb (1 / 100) < 1 :=
  ⟨keepProb_profile.1 (Set.mem_Ioc.mpr ⟨by norm_num, by norm_num⟩)
      (Set.mem_Ioc.mpr ⟨by norm_num, by norm_num⟩) (by norm_num),
    keepProb_profile.2.1 (1 / 1000) (by norm_num) (by norm_num),
    keepProb_profile.2.2 (1 / 100) (by norm_num)⟩

theorem wordFreq_aab_a : wordFreq [["a", "a", "b"]] ("a") = 2 / 3 := by
  have hc : ([["a", "a", "b"]] : List (List String)).flatten.count ("a") = 2 := by decide
  have hl : ([["a", "a", "b"]] : List (List String)).flatten.length = 3 := by decide
  unfold wordFreq
  rw [hc, hl]
  norm_num

theorem wordFreq_aab_b : wordFreq [["a", "a", "b"]] ("b") = 1 / 3 := by
  have hc : ([["a", "a", "b"]] : List (List String)).flatten.count ("b") = 1 := by decide
  have hl : ([["a", "a", "b"]] : List (List String)).flatten.length = 3 := by decide
  unfold wordFreq
  rw [hc, hl]
  norm_num

theorem subsample_aab : subsample_frequent_words subDraws [["a", "a", "b"]] = [["a", "b"]] := by
  have c0 : subDraws 0 < keepProb (wordFreq [["a", "a", "b"]] ("a")) := by
    rw [wordFreq_aab_a]
    have h0 : subDraws 0 = 0 := by simp [subDraws]
    rw [h0]
    exact keepProb_pos (by norm_num)
  have c1 : ¬subDraws 1 < keepProb (wordFreq [["a", "a", "b"]] ("a")) := by
    rw [wordFreq_aab_a]
    have h1 : subDraws 1 = 1 := by simp [subDraws]
    rw [h1]
    have h2 := keepProb_lt_one (p := 2 / 3) (by norm_num)
    linarith
  have c2 : subDraws 2 < keepProb (wordFreq [["a", "a", "b"]] ("b")) := by
    rw [wordFreq_aab_b]
    have h0 : subDraws 2 = 0 := by simp [subDraws]
    rw [h0]
    exact keepProb_pos (by norm_num)
  unfold subsample_frequent_words
  simp only [subsampleCorpus, subsampleText]
  norm_num
  rw [if_pos c0, if_neg c1, if_pos c2]

theorem sample_probability_ab_a : sample_probability [["a", "b"]] ("a") = 1 / 2 := by
  have hd : ([["a", "b"]] : List (List String)).flatten.dedup = [("a"), ("b")] := by decide
  have hca : ([["a", "b"]] : List (List String)).flatten.count ("a") = 1 := by decide
  have hcb : ([["a", "b"]] : List (List String)).flatten.count ("b") = 1 := by decide
  unfold sample_probability normalizing_factor
  rw [hd]
  simp only [List.map_cons, List.map_nil, hca, hcb, List.sum_cons, List.sum_nil,
    Nat.cast_one, Real.one_rpow]
  norm_num

theorem sample_probability_aab_a :
    sample_probability [["a", "a", "b"]] ("a")
      = (2 : ℝ) ^ (0.75 : ℝ) / ((2 : ℝ) ^ (0.75 : ℝ) + 1) := by
  have hd : ([["a", "a", "b"]] : List (List String)).flatten.dedup = [("a"), ("b")] := by
    decide
  have hca : ([["a", "a", "b"]] : List (List String)).flatten.count ("a") = 2 := by decide
  have hcb : ([["a", "a", "b"]] : List (List String)).flatten.count ("b") = 1 := by decide
  unfold sample_probability normalizing_factor
  rw [hd]
  simp only [List.map_cons, List.map_nil, hca, hcb, List.sum_cons, List.sum_nil,
    Nat.cast_one, Nat.cast_ofNat, Real.one_rpow]
  norm_num

/-- Claim C1 (counterexample): the sampler's distribution is *not* taken over the
pre-subsampling frequency table.  `sample_negative` reads the global `corpus`,
already reassigned to the subsampled corpus: for the raw corpus `[["a","a","b"]]`
and draws that remove the second `"a"`, the sampler's probability of `"a"` is
`1/2` (counts 1,1), while the claim's pre-subsampling value would be
`2^0.75 / (2^0.75 + 1) ≠ 1/2`. -/
theorem sample_probability_uses_subsampled :
    pipeline_sample_probability subDraws [["a", "a", "b"]] ("a")
      ≠ sample_probability [["a", "a", "b"]] ("a") := by
  unfold pipeline_sample_probability
  rw [subsample_aab, sample_probability_ab_a, sample_probability_aab_a]
  have ht : (1 : ℝ) < (2 : ℝ) ^ (0.75 : ℝ) := by
    rw [Real.one_lt_rpow_iff_of_pos (by norm_num)]
    left
    constructor <;> norm_num
  have hd : (0 : ℝ) < (2 : ℝ) ^ (0.75 : ℝ) + 1 := by linarith
  intro heq
  rw [div_eq_div_iff (by norm_num) hd.ne'] at heq
  linarith

/-- Claim C1 (amended): the negative-sampling distribution assigns each vocabulary
word probability `count(w)^0.75 / Σ count^0.75` with the counts taken over the
corpus the sampler reads — the *post-subsampling* corpus in the notebook's
pipeline; the `sample_probability` table is computed once per generator, before
its `while True` loop, and every yield `n` uses that same table; over a corpus
with at least one token the probabilities sum to 1. -/
theorem sample_negative_dist_spec (corpus : List (List String))
    (h : corpus.flatten ≠ []) :
    (∀ n : ℕ, sample_negative_dists corpus n = sample_probability corpus) ∧
    (corpus.flatten.dedup.map (sample_probability corpus)).sum = 1 := by
  constructor
  · intro n
    rfl
  · have hN : 0 < normalizing_factor corpus := by
      unfold normalizing_factor
      apply List.sum_pos
      · intro x hx
        simp only [List.mem_map] at hx
        obtain ⟨w, hw, hxe⟩ := hx
        subst hxe
        have hc : 0 < corpus.flatten.count w :=
          List.count_pos_iff.mpr (List.mem_dedup.mp hw)
        exact Real.rpow_pos_of_pos (by exact_mod_cast hc) _
      · intro he
        rw [List.map_eq_nil_iff] at he
        exact h ((List.dedup_eq_nil _).mp he)
    unfold sample_probability
    simp only [div_eq_mul_inv]
    rw [List.sum_map_mul_right]
    have hsum : (corpus.flatten.dedup.map
        (fun w => (corpus.flatten.count w : ℝ) ^ (0.75 : ℝ))).sum
        = normalizing_factor corpus := rfl
    rw [hsum]
    exact mul_inv_cancel₀ hN.ne'

/-- Witness for `sample_negative_dist_spec` at the one-token corpus `[["a"]]`. -/
theorem sample_negative_dist_spec_witness :
    (∀ n : ℕ, sample_negative_dists [["a"]] n = sample_probability [["a"]]) ∧
    (([["a"]] : List (List String)).flatten.dedup.map
      (sample_probability [["a"]])).sum = 1 :=
  sample_negative_dist_spec [["a"]] (by decide)

theorem logsigmoid_neg_eq (x : ℝ) : logsigmoid (-x) = -Real.log (1 + Real.exp x) := by
  unfold logsigmoid sigmoid
  rw [neg_neg, one_div, Real.log_inv]

theorem logsigmoid_two_ne : logsigmoid (-2) ≠ logsigmoid (-1) + logsigmoid (-1) := by
  rw [logsigmoid_neg_eq, logsigmoid_neg_eq]
  intro heq
  have hpos1 : (0 : ℝ) < 1 + Real.exp 1 := by positivity
  have hpos2 : (0 : ℝ) < 1 + Real.exp 2 := by positivity
  have hx : Real.log (1 + Real.exp 2) = Real.log ((1 + Real.exp 1) ^ 2) := by
    rw [Real.log_pow]
    push_cast
    linarith
  have h5 : (1 : ℝ) + Real.exp 2 = (1 + Real.exp 1) ^ 2 := by
    have h6 := congrArg Real.exp hx
    rwa [Real.exp_log hpos2, Real.exp_log (by positivity)] at h6
  have h7 : Real.exp 2 = Real.exp 1 * Real.exp 1 := by
    rw [← Real.exp_add]
    norm_num
  nlinarith [Real.exp_pos 1]

/-- Claim C2 (code evaluation at the failing input): with a 1-dimensional net
whose every embedding is `[1]`, one (target, context) pair and `k = 2` negatives,
the code returns `-(logσ(1) + logσ(-2))` — it sums the two negative dot products
*before* the `logsigmoid` (the `torch.sum(·, dim=1)` over the `[B,k,1]` bmm
output) — whereas the claimed (and notebook-documented) loss is
`-(logσ(1) + logσ(-1) + logσ(-1))`; the two values differ. -/
theorem forward_ne_claim :
    forward oneNet [0] [0] [[0, 0]] = -(logsigmoid 1 + logsigmoid (-2)) ∧
    forward_claim oneNet [0] [0] [[0, 0]]
      = -(logsigmoid 1 + (logsigmoid (-1) + logsigmoid (-1))) ∧
    forward oneNet [0] [0] [[0, 0]] ≠ forward_claim oneNet [0] [0] [[0, 0]] := by
  have h1 : forward oneNet [0] [0] [[0, 0]] = -(logsigmoid 1 + logsigmoid (-2)) := by
    unfold forward oneNet
    simp
    norm_num
  have h2 : forward_claim oneNet [0] [0] [[0, 0]]
      = -(logsigmoid 1 + (logsigmoid (-1) + logsigmoid (-1))) := by
    unfold forward_claim oneNet
    simp
  refine ⟨h1, h2, ?_⟩
  rw [h1, h2]
  intro heq
  have : logsigmoid (-2) = logsigmoid (-1) + logsigmoid (-1) := by linarith
  exact logsigmoid_two_ne this
